import Mathlib

/-!
Verification development for the `img-optim` archive image-conversion tool
(`src/main.rs`).  The program is embedded shallowly:

* Rust `String` values are modelled as Lean `String` / `List Char`
  (`str::len`, which counts UTF-8 bytes, is modelled by `utf8Len`);
* `String::replace`, `String::contains`, `regex::escape` and the program's
  own `escape_glob` are translated function-by-function;
* the external `regex` engine is modelled by `parseAux`/`rmatchP` on the
  linear fixed-width pattern fragment that the derivation
  `regex::escape` + `replace(token, "(.{n})")` produces; pattern strings
  outside that fragment are modelled as a compile failure (the program
  aborts on `Regex::new` errors via `?`);
* the filesystem-facing pipeline (`unpack_archive`, `process_files`,
  `process_one_file`, `process_one_image`, `repack_output`,
  `process_archive`) is modelled over an explicit tree of relative paths,
  with the external `gm` converter as an oracle and the external `zip`
  tool by its documented exit-status contract.
-/

/-! ## Rust string primitives on `List Char` -/

/-- Boolean prefix test on character lists (Rust `str::starts_with` as used
by `String::replace`'s scan). -/
def isPre : List Char → List Char → Bool
  | [], _ => true
  | _ :: _, [] => false
  | a :: as_, b :: bs => a == b && isPre as_ bs

/-- Rust `String::contains` for a literal needle. -/
def containsSub : List Char → List Char → Bool
  | s, t =>
    if isPre t s then true
    else match s with
      | [] => false
      | _ :: s' => containsSub s' t

theorem isPre_length {t s : List Char} (h : isPre t s = true) :
    t.length ≤ s.length := by
  induction t generalizing s with
  | nil => simp
  | cons a as_ ih =>
    cases s with
    | nil => simp [isPre] at h
    | cons b bs =>
      simp only [isPre, Bool.and_eq_true] at h
      simpa using ih h.2

/-- Fuel-driven core of Rust `String::replace` for a nonempty needle:
leftmost, non-overlapping matches, replacement text never rescanned. -/
def replaceNEGo : Nat → List Char → List Char → List Char → List Char
  | 0, _, _, _ => []
  | fuel + 1, s, t, r =>
    if 1 ≤ t.length ∧ isPre t s = true then
      r ++ replaceNEGo fuel (s.drop t.length) t r
    else match s with
      | [] => []
      | c :: rest => c :: replaceNEGo fuel rest t r

/-- Rust `String::replace` with a nonempty needle. -/
def replaceNE (s t r : List Char) : List Char :=
  replaceNEGo s.length s t r

/-- Rust `String::replace` with the empty needle inserts the replacement
before every character and at the end: `"abc".replace("", "X") = "XaXbXcX"`. -/
def interleaveR : List Char → List Char → List Char
  | [], r => r
  | c :: rest, r => r ++ c :: interleaveR rest r

/-- Rust `String::replace`. -/
def replaceL (s t r : List Char) : List Char :=
  if t = [] then interleaveR s r else replaceNE s t r

theorem notCondNil (t : List Char) : ¬ (1 ≤ t.length ∧ isPre t [] = true) := by
  rintro ⟨h1, h2⟩
  cases t with
  | nil => simp at h1
  | cons a as_ => simp [isPre] at h2

theorem replaceNEGo_fuel (f1 f2 : Nat) (s t r : List Char)
    (h1 : s.length ≤ f1) (h2 : s.length ≤ f2) :
    replaceNEGo f1 s t r = replaceNEGo f2 s t r := by
  induction f1 generalizing f2 s with
  | zero =>
    have hs : s = [] := by
      cases s with
      | nil => rfl
      | cons c rest => simp at h1
    subst hs
    cases f2 with
    | zero => rfl
    | succ f2 => simp [replaceNEGo, if_neg (notCondNil t)]
  | succ f1 ih =>
    cases f2 with
    | zero =>
      have hs : s = [] := by
        cases s with
        | nil => rfl
        | cons c rest => simp at h2
      subst hs
      simp [replaceNEGo, if_neg (notCondNil t)]
    | succ f2 =>
      by_cases hc : 1 ≤ t.length ∧ isPre t s = true
      · simp only [replaceNEGo, if_pos hc]
        have hts := isPre_length hc.2
        have hd1 : (s.drop t.length).length ≤ f1 := by
          simp only [List.length_drop]; omega
        have hd2 : (s.drop t.length).length ≤ f2 := by
          simp only [List.length_drop]; omega
        rw [ih _ _ hd1 hd2]
      · cases s with
        | nil => simp [replaceNEGo, if_neg (notCondNil t)]
        | cons c rest =>
          simp only [replaceNEGo, if_neg hc]
          simp only [List.length_cons] at h1 h2
          rw [ih f2 rest (by omega) (by omega)]

theorem replaceNE_pos {t s : List Char} (r : List Char)
    (ht : 1 ≤ t.length) (h : isPre t s = true) :
    replaceNE s t r = r ++ replaceNE (s.drop t.length) t r := by
  have hts := isPre_length h
  have hs : 1 ≤ s.length := le_trans ht hts
  obtain ⟨n, hn⟩ : ∃ n, s.length = n + 1 := ⟨s.length - 1, by omega⟩
  show replaceNEGo s.length s t r = r ++ replaceNEGo (s.drop t.length).length _ t r
  rw [hn]
  simp only [replaceNEGo, if_pos (And.intro ht h)]
  congr 1
  apply replaceNEGo_fuel
  · simp only [List.length_drop]; omega
  · exact le_rfl

theorem replaceNE_nil (t r : List Char) : replaceNE [] t r = [] := rfl

theorem replaceNE_cons {t : List Char} (c : Char) (rest r : List Char)
    (hc : ¬ (1 ≤ t.length ∧ isPre t (c :: rest) = true)) :
    replaceNE (c :: rest) t r = c :: replaceNE rest t r := by
  show replaceNEGo (rest.length + 1) (c :: rest) t r =
    c :: replaceNEGo rest.length rest t r
  simp only [replaceNEGo, if_neg hc]

/-! ## `escape_glob` and `regex::escape` (src/main.rs lines 298-308, and the
`regex` crate's escaping of its meta characters) -/

/-- The meta characters escaped by `regex::escape`. -/
def metaChars : List Char :=
  ['\\', '.', '+', '*', '?', '(', ')', '|', '[', ']', '\x7b', '\x7d',
   '^', '$', '#', '&', '-', '~']

def isMeta (c : Char) : Bool := metaChars.contains c

/-- `regex::escape`: every meta character is prefixed with a backslash. -/
def regexEscape : List Char → List Char
  | [] => []
  | c :: rest =>
    (if isMeta c then ['\\', c] else [c]) ++ regexEscape rest

/-- `escape_glob` from src/main.rs: a chain of `String::replace` calls, in
source order — note that `#` is escaped twice. -/
def escapeGlob (s : List Char) : List Char :=
  let s1 := replaceL s  ['!'] ['\\', '!']
  let s2 := replaceL s1 ['#'] ['\\', '#']
  let s3 := replaceL s2 ['*'] ['\\', '*']
  let s4 := replaceL s3 ['?'] ['\\', '?']
  let s5 := replaceL s4 ['#'] ['\\', '#']
  let s6 := replaceL s5 ['['] ['\\', '[']
  let s7 := replaceL s6 [']'] ['\\', ']']
  let s8 := replaceL s7 ['\x7b'] ['\\', '\x7b']
  replaceL s8 ['\x7d'] ['\\', '\x7d']

/-- Rust `str::len`: the UTF-8 byte length. -/
def utf8Len (s : List Char) : Nat := (s.map Char.utf8Size).sum

/-! ## Decimal rendering of the capture width (`format!("(.{{{}}})", n)`) -/

def digitChar : Nat → Char
  | 0 => '0' | 1 => '1' | 2 => '2' | 3 => '3' | 4 => '4'
  | 5 => '5' | 6 => '6' | 7 => '7' | 8 => '8' | _ => '9'

def toDigsGo : Nat → Nat → List Char
  | 0, _ => []
  | fuel + 1, n =>
    if n < 10 then [digitChar n]
    else toDigsGo fuel (n / 10) ++ [digitChar (n % 10)]

/-- Decimal digits of `n`, most significant first. -/
def toDigs (n : Nat) : List Char := toDigsGo (n + 1) n

theorem toDigsGo_fuel (f1 f2 n : Nat) (h1 : n < f1) (h2 : n < f2) :
    toDigsGo f1 n = toDigsGo f2 n := by
  induction f1 generalizing f2 n with
  | zero => omega
  | succ f1 ih =>
    cases f2 with
    | zero => omega
    | succ f2 =>
      simp only [toDigsGo]
      by_cases hn : n < 10
      · rw [if_pos hn, if_pos hn]
      · rw [if_neg hn, if_neg hn]
        rw [ih f2 (n / 10) (by omega) (by omega)]

theorem toDigs_lt {n : Nat} (h : n < 10) : toDigs n = [digitChar n] := by
  simp [toDigs, toDigsGo, h]

theorem toDigs_ge {n : Nat} (h : 10 ≤ n) :
    toDigs n = toDigs (n / 10) ++ [digitChar (n % 10)] := by
  have h1 : toDigs n = toDigsGo n (n / 10) ++ [digitChar (n % 10)] := by
    simp [toDigs, toDigsGo, if_neg (by omega : ¬ n < 10)]
  rw [h1, toDigsGo_fuel n (n / 10 + 1) (n / 10) (by omega) (by omega)]
  rfl

/-- The replacement string for the placeholder in the derived regex:
`"(.{n})"` with `n` in decimal. -/
def capStr (n : Nat) : List Char :=
  '(' :: '.' :: '\x7b' :: (toDigs n ++ ['\x7d', ')'])

/-! ## The model regex engine (linear fixed-width fragment) -/

/-- A compiled pattern atom: a literal character, or the fixed-width
capture group `(.{k})`. -/
inductive RTok where
  | lit (c : Char)
  | cap (k : Nat)
deriving DecidableEq, Repr

/-- Parser state for the pattern compiler. -/
inductive PState where
  | top
  | bs
  | g1
  | g2
  | gd (acc : Nat) (seen : Bool)
  | gc (k : Nat)
deriving DecidableEq, Repr

def isDig (c : Char) : Bool := 48 ≤ c.toNat && c.toNat ≤ 57

def digVal (c : Char) : Nat := c.toNat - 48

/-- Bare characters the model engine accepts as literals: anything
`regex::escape` leaves unescaped, plus the meta characters that the real
engine also treats as plain literals when unescaped. -/
def bareLit (c : Char) : Bool :=
  !(isMeta c) || (['#', '&', '-', '~', ']', '\x7d'].contains c)

/-- Compile a pattern string into atoms.  Anything outside the linear
fixed-width fragment (which is all `Regex::new` is given by the program on
the inputs of interest) is modelled as a compile failure. -/
def parseAux : PState → List Char → Option (List RTok)
  | .top, [] => some []
  | .top, c :: rest =>
    if c = '\\' then parseAux .bs rest
    else if c = '(' then parseAux .g1 rest
    else if bareLit c then (parseAux .top rest).map (RTok.lit c :: ·)
    else none
  | .bs, [] => none
  | .bs, c :: rest =>
    if isMeta c then (parseAux .top rest).map (RTok.lit c :: ·) else none
  | .g1, [] => none
  | .g1, c :: rest => if c = '.' then parseAux .g2 rest else none
  | .g2, [] => none
  | .g2, c :: rest => if c = '\x7b' then parseAux (.gd 0 false) rest else none
  | .gd _ _, [] => none
  | .gd acc seen, c :: rest =>
    if isDig c then parseAux (.gd (acc * 10 + digVal c) true) rest
    else if c = '\x7d' ∧ seen = true then parseAux (.gc acc) rest
    else none
  | .gc _, [] => none
  | .gc k, c :: rest =>
    if c = ')' then (parseAux .top rest).map (RTok.cap k :: ·) else none

def parseRegex (l : List Char) : Option (List RTok) := parseAux .top l

/-- Anchored match of a compiled pattern against a prefix of `s`,
returning the capture-group texts in order.  `(.{k})` consumes exactly `k`
non-newline characters. -/
def rmatchP : List RTok → List Char → Option (List (List Char))
  | [], _ => some []
  | RTok.lit c :: ts, d :: ds =>
    if c = d then rmatchP ts ds else none
  | RTok.lit _ :: _, [] => none
  | RTok.cap k :: ts, ds =>
    if k ≤ ds.length ∧ (ds.take k).all (· ≠ '\n') then
      (rmatchP ts (ds.drop k)).map ((ds.take k) :: ·)
    else none

/-- Unanchored search (`Regex::captures`): leftmost window that matches. -/
def rfindFrom (ts : List RTok) : List Char → Option (List (List Char))
  | [] => rmatchP ts []
  | c :: rest =>
    match rmatchP ts (c :: rest) with
    | some caps => some caps
    | none => rfindFrom ts rest

/-! ## The derived glob and its matcher -/

/-- Glob matching for the fragment reachable from `escape_glob` output plus
inserted `?` wildcards: literal characters, backslash escapes, and `?`
(one character, not a path separator). -/
def globMatch : List Char → List Char → Bool
  | [], [] => true
  | [], _ :: _ => false
  | '\\' :: c :: ps, d :: ds => c == d && globMatch ps ds
  | '\\' :: _ :: _, [] => false
  | ['\\'], _ => false
  | '?' :: ps, d :: ds => d ≠ '/' && globMatch ps ds
  | '?' :: _, [] => false
  | c :: ps, d :: ds => c == d && globMatch ps ds
  | _ :: _, [] => false

/-! ## Sorting by path string (walker `sort_by` on `Path::to_str`) -/

def charLe (a b : Char) : Bool := a.toNat ≤ b.toNat

def listCharLe : List Char → List Char → Bool
  | [], _ => true
  | _ :: _, [] => false
  | a :: as_, b :: bs =>
    if a.toNat < b.toNat then true
    else if b.toNat < a.toNat then false
    else listCharLe as_ bs

def strLe (a b : String) : Bool := listCharLe a.data b.data

def insertSorted (le : α → α → Bool) (x : α) : List α → List α
  | [] => [x]
  | y :: ys => if le x y then x :: y :: ys else y :: insertSorted le x ys

def sortBy (le : α → α → Bool) : List α → List α
  | [] => []
  | x :: xs => insertSorted le x (sortBy le xs)

/-! ## `Opts` and `resolve_pattern` (src/main.rs lines 16-31, 58-107) -/

/-- The CLI options / job description (struct `Opts`). -/
structure Opts where
  source : String
  target : String
  quality : Option String
  geometry : Option String
  define : Option String
  extension : Option String
  many : Option String
deriving DecidableEq, Repr

/-- Outcome type standing in for `anyhow::Result`. -/
inductive Res (α : Type) where
  | ok (a : α)
  | err (msg : String)
deriving DecidableEq, Repr

/-- The glob derived from the source template: `escape_glob` first, then
the placeholder replaced by `"?".repeat(pattern.len())` — `len` in bytes. -/
def derivedGlob (source token : List Char) : List Char :=
  replaceL (escapeGlob source) token (List.replicate (utf8Len token) '?')

/-- The regex pattern string derived from the source template:
`regex::escape` first, then the placeholder replaced by `"(.{n})"` with
`n = pattern.len()` in bytes. -/
def derivedRegex (source token : List Char) : List Char :=
  replaceL (regexEscape source) token (capStr (utf8Len token))

/-- Per-match body of the `resolve_pattern` loop: run the regex, take
capture group 1 (`captures.get(1).unwrap()` — a missing group is a panic,
modelled as an error), substitute into the target template. -/
def resolveGo (opts : Opts) (pattern : String) (rtoks : List RTok) :
    List String → Res (List Opts)
  | [] => .ok []
  | f :: fs =>
    match rfindFrom rtoks f.data with
    | none => .err "no idea what happened"
    | some caps =>
      match caps.head? with
      | none => .err "captures.get(1) panicked: no capture group"
      | some v =>
        match resolveGo opts pattern rtoks fs with
        | .err m => .err m
        | .ok rest =>
          .ok ({ opts with
                  source := f,
                  target := String.mk (replaceL opts.target.data pattern.data v),
                  many := none } :: rest)

/-- `resolve_pattern`: derive glob and regex from the source template,
enumerate matching plain files sorted by path, extract the capture, and
build one concrete job per match. -/
def resolvePattern (opts : Opts) (pattern : String) (fs : List String) :
    Res (List Opts) :=
  if ¬ containsSub opts.source.data pattern.data then
    .err "source name doesn't contain pattern"
  else
    match parseRegex (derivedRegex opts.source.data pattern.data) with
    | none => .err "Regex::new failed"
    | some rtoks =>
      if ¬ containsSub opts.target.data pattern.data then
        .err "target name doesn't contain pattern"
      else
        let globP := derivedGlob opts.source.data pattern.data
        let files := sortBy strLe (fs.filter (fun f => globMatch globP f.data))
        resolveGo opts pattern rtoks files


/-! ## Parser stepping lemmas -/

theorem bareLit_ne {c : Char} (h : bareLit c = true) : c ≠ '\\' ∧ c ≠ '(' := by
  constructor <;> rintro rfl <;> simp [bareLit, isMeta, metaChars] at h

theorem parse_top_bare {c : Char} (h : bareLit c = true) (x : List Char) :
    parseAux .top (c :: x) = (parseAux .top x).map (RTok.lit c :: ·) := by
  obtain ⟨h1, h2⟩ := bareLit_ne h
  simp [parseAux, h1, h2, h]

theorem parse_top_fail {c : Char} (h1 : c ≠ '\\') (h2 : c ≠ '(')
    (h3 : bareLit c = false) (x : List Char) :
    parseAux .top (c :: x) = none := by
  simp [parseAux, h1, h2, h3]

theorem parse_top_bs (x : List Char) : parseAux .top ('\\' :: x) = parseAux .bs x := by
  simp [parseAux]

theorem parse_bs_meta {m : Char} (h : isMeta m = true) (x : List Char) :
    parseAux .bs (m :: x) = (parseAux .top x).map (RTok.lit m :: ·) := by
  simp [parseAux, h]

theorem parse_bs_nonmeta {m : Char} (h : isMeta m = false) (x : List Char) :
    parseAux .bs (m :: x) = none := by
  simp [parseAux, h]

theorem parse_top_lp (x : List Char) : parseAux .top ('(' :: x) = parseAux .g1 x := by
  simp [parseAux]

theorem parse_g1_ne {c : Char} (h : c ≠ '.') (x : List Char) :
    parseAux .g1 (c :: x) = none := by
  simp [parseAux, h]

theorem parse_dot_none (x : List Char) : parseAux .top ('.' :: x) = none := by
  apply parse_top_fail <;> decide

theorem digitChar_facts {d : Nat} (h : d < 10) :
    isDig (digitChar d) = true ∧ digVal (digitChar d) = d := by
  interval_cases d <;> exact ⟨by decide, by decide⟩

theorem parse_gd_digits (n : Nat) :
    ∀ acc : Nat, ∀ seen : Bool, ∀ r : List Char,
    parseAux (.gd acc seen) (toDigs n ++ r) =
      parseAux (.gd (acc * 10 ^ (toDigs n).length + n) true) r := by
  induction n using Nat.strong_induction_on with
  | _ n ih =>
    intro acc seen r
    by_cases hn : n < 10
    · obtain ⟨hd, hv⟩ := digitChar_facts hn
      rw [toDigs_lt hn]
      simp [parseAux, hd, hv]
    · have h10 : 10 ≤ n := by omega
      rw [toDigs_ge h10, List.append_assoc, List.singleton_append,
        ih (n / 10) (by omega) acc seen]
      have hL : (toDigs n).length = (toDigs (n / 10)).length + 1 := by
        rw [toDigs_ge h10]; simp
      obtain ⟨hd, hv⟩ := digitChar_facts (show n % 10 < 10 by omega)
      simp only [parseAux, hd, if_pos, hv]
      have harith : (acc * 10 ^ (toDigs (n / 10)).length + n / 10) * 10 + n % 10 =
          acc * 10 ^ (toDigs (n / 10) ++ [digitChar (n % 10)]).length + n := by
        have hdm := Nat.div_add_mod n 10
        have hlen2 : (toDigs (n / 10) ++ [digitChar (n % 10)]).length =
            (toDigs (n / 10)).length + 1 := by simp
        rw [hlen2, pow_succ]
        have e : (acc * 10 ^ (toDigs (n / 10)).length + n / 10) * 10 + n % 10 =
            acc * (10 ^ (toDigs (n / 10)).length * 10) + (n / 10 * 10 + n % 10) := by
          ring
        rw [e]
        omega
      rw [harith]

theorem parse_cap_prepend (n : Nat) (x : List Char) :
    parseAux .top (capStr n ++ x) = (parseAux .top x).map (RTok.cap n :: ·) := by
  show parseAux .top ('(' :: '.' :: '\x7b' :: ((toDigs n ++ ['\x7d', ')']) ++ x)) = _
  rw [List.append_assoc]
  rw [parse_top_lp]
  rw [show parseAux .g1 ('.' :: '\x7b' :: (toDigs n ++ (['\x7d', ')'] ++ x))) =
    parseAux .g2 ('\x7b' :: (toDigs n ++ (['\x7d', ')'] ++ x))) from by simp [parseAux]]
  rw [show parseAux .g2 ('\x7b' :: (toDigs n ++ (['\x7d', ')'] ++ x))) =
    parseAux (.gd 0 false) (toDigs n ++ (['\x7d', ')'] ++ x)) from by simp [parseAux]]
  rw [parse_gd_digits]
  have h1 : isDig '\x7d' = false := by decide
  simp [parseAux, h1]

/-! ## Structure of `regex::escape` output and its suffixes -/

/-- Strings that are concatenations of escape units: a bare non-meta
character, or a backslash followed by a meta character. -/
inductive Escaped : List Char → Prop where
  | nil : Escaped []
  | plain {c : Char} {rest : List Char} (hc : isMeta c = false)
      (h : Escaped rest) : Escaped (c :: rest)
  | esc {m : Char} {rest : List Char} (hm : isMeta m = true)
      (h : Escaped rest) : Escaped ('\\' :: m :: rest)

theorem escaped_regexEscape (s : List Char) : Escaped (regexEscape s) := by
  induction s with
  | nil => exact Escaped.nil
  | cons c rest ih =>
    by_cases hc : isMeta c = true
    · simpa [regexEscape, hc] using Escaped.esc hc ih
    · have hc' : isMeta c = false := by simpa using hc
      simpa [regexEscape, hc'] using Escaped.plain hc' ih

/-- A suffix of an `Escaped` string. -/
def SuffEsc (E : List Char) : Prop := ∃ pre, Escaped (pre ++ E)

theorem suffEsc_of_escaped {E : List Char} (h : Escaped E) : SuffEsc E :=
  ⟨[], by simpa using h⟩

theorem suffEsc_drop {E : List Char} (k : Nat) (h : SuffEsc E) :
    SuffEsc (E.drop k) := by
  obtain ⟨pre, hpre⟩ := h
  exact ⟨pre ++ E.take k, by rwa [List.append_assoc, List.take_append_drop]⟩

/-- A suffix of an escaped string is either itself escaped, or starts with
an orphaned meta character whose backslash lies in the dropped part. -/
theorem suffEsc_cases {E : List Char} (h : SuffEsc E) :
    Escaped E ∨ ∃ m E', isMeta m = true ∧ Escaped E' ∧ E = m :: E' := by
  obtain ⟨pre, hpre⟩ := h
  suffices hgen : ∀ L, Escaped L → ∀ pre, L = pre ++ E →
      Escaped E ∨ ∃ m E', isMeta m = true ∧ Escaped E' ∧ E = m :: E' by
    exact hgen _ hpre pre rfl
  intro L hL
  induction hL with
  | nil =>
    intro pre hpe
    obtain ⟨h1, h2⟩ := List.append_eq_nil.mp hpe.symm
    subst h2
    exact Or.inl Escaped.nil
  | plain hc hrest ih =>
    intro pre hpe
    cases pre with
    | nil =>
      simp only [List.nil_append] at hpe
      rw [← hpe]
      exact Or.inl (Escaped.plain hc hrest)
    | cons p ps =>
      simp only [List.cons_append, List.cons.injEq] at hpe
      exact ih ps hpe.2
  | esc hm hrest ih =>
    intro pre hpe
    cases pre with
    | nil =>
      simp only [List.nil_append] at hpe
      rw [← hpe]
      exact Or.inl (Escaped.esc hm hrest)
    | cons p ps =>
      simp only [List.cons_append, List.cons.injEq] at hpe
      obtain ⟨hp, hpe2⟩ := hpe
      cases ps with
      | nil =>
        simp only [List.nil_append] at hpe2
        rename_i m rest
        exact Or.inr ⟨m, rest, hm, hrest, hpe2.symm⟩
      | cons q qs =>
        simp only [List.cons_append, List.cons.injEq] at hpe2
        exact ih qs hpe2.2

/-- The interleaving of a list with `R` always starts with `R`. -/
theorem inter_shape (E r : List Char) : ∃ y, interleaveR E r = r ++ y := by
  cases E with
  | nil => exact ⟨[], by simp [interleaveR]⟩
  | cons c rest => exact ⟨c :: interleaveR rest r, rfl⟩

/-- `replaceNE` output shape: it starts with `R` (match at front), or with
the first source character, or is empty. -/
theorem replaceNE_shape (E t r : List Char) (ht : 1 ≤ t.length) :
    (isPre t E = true ∧ replaceNE E t r = r ++ replaceNE (E.drop t.length) t r) ∨
    (E = [] ∧ replaceNE E t r = []) ∨
    (∃ c rest, E = c :: rest ∧ isPre t E = false ∧
      replaceNE E t r = c :: replaceNE rest t r) := by
  by_cases hocc : isPre t E = true
  · exact Or.inl ⟨hocc, replaceNE_pos r ht hocc⟩
  · cases E with
    | nil => exact Or.inr (Or.inl ⟨rfl, rfl⟩)
    | cons c rest =>
      refine Or.inr (Or.inr ⟨c, rest, rfl, by simpa using hocc, ?_⟩)
      exact replaceNE_cons c rest r (by tauto)

/-! ## Every capture group in a derived pattern has the token's byte width -/

theorem cap_mem_cons_lit {k : Nat} {c : Char} {l : List RTok}
    (h : RTok.cap k ∈ RTok.lit c :: l) : RTok.cap k ∈ l := by
  rcases List.mem_cons.mp h with h1 | h1
  · exact absurd h1 (by simp)
  · exact h1

theorem cap_mem_cons_cap {k m : Nat} {l : List RTok}
    (h : RTok.cap k ∈ RTok.cap m :: l) : k = m ∨ RTok.cap k ∈ l := by
  rcases List.mem_cons.mp h with h1 | h1
  · left; injection h1
  · right; exact h1

theorem widths_inter_nil (n : Nat) (toks : List RTok) (k : Nat)
    (hp : parseAux .top (interleaveR [] (capStr n)) = some toks)
    (hmem : RTok.cap k ∈ toks) : k = n := by
  rw [show interleaveR [] (capStr n) = capStr n ++ [] by simp [interleaveR],
    parse_cap_prepend] at hp
  simp only [parseAux, Option.map_some', Option.some.injEq] at hp
  subst hp
  rcases cap_mem_cons_cap hmem with h | h
  · exact h
  · simp at h

/-- Width invariant for the empty-token derivation
(`replace` with an empty needle interleaves `"(.{n})"` everywhere). -/
theorem widths_inter (n : Nat) :
    ∀ L E, E.length ≤ L → SuffEsc E → ∀ toks k,
      parseAux .top (interleaveR E (capStr n)) = some toks →
      RTok.cap k ∈ toks → k = n := by
  intro L
  induction L with
  | zero =>
    intro E hlen hSE toks k hp hmem
    have hE : E = [] := List.eq_nil_of_length_eq_zero (by omega)
    subst hE
    exact widths_inter_nil n toks k hp hmem
  | succ L ih =>
    intro E hlen hSE toks k hp hmem
    rcases suffEsc_cases hSE with hEsc | ⟨m, E', hm, hE', rfl⟩
    · cases hEsc with
      | nil => exact widths_inter_nil n toks k hp hmem
      | plain hc hrest =>
        rename_i c rest
        rw [show interleaveR (c :: rest) (capStr n) =
          capStr n ++ (c :: interleaveR rest (capStr n)) from rfl,
          parse_cap_prepend] at hp
        cases hq : parseAux .top (c :: interleaveR rest (capStr n)) with
        | none => rw [hq] at hp; simp at hp
        | some toks1 =>
          rw [hq] at hp
          simp only [Option.map_some', Option.some.injEq] at hp
          subst hp
          have hbare : bareLit c = true := by simp [bareLit, hc]
          rw [parse_top_bare hbare] at hq
          cases hq2 : parseAux .top (interleaveR rest (capStr n)) with
          | none => rw [hq2] at hq; simp at hq
          | some toks2 =>
            rw [hq2] at hq
            simp only [Option.map_some', Option.some.injEq] at hq
            subst hq
            rcases cap_mem_cons_cap hmem with h | h
            · exact h
            · have h2 := cap_mem_cons_lit h
              have hlen2 : rest.length ≤ L := by
                simp only [List.length_cons] at hlen; omega
              exact ih rest hlen2 (suffEsc_of_escaped hrest) toks2 k hq2 h2
      | esc hm2 hrest =>
        rename_i m2 rest2
        rw [show interleaveR ('\\' :: m2 :: rest2) (capStr n) =
          capStr n ++ ('\\' :: (capStr n ++ (m2 :: interleaveR rest2 (capStr n))))
          from rfl, parse_cap_prepend, parse_top_bs] at hp
        rw [show capStr n ++ (m2 :: interleaveR rest2 (capStr n)) =
          '(' :: ('.' :: ('\x7b' :: ((toDigs n ++ ['\x7d', ')']) ++
            (m2 :: interleaveR rest2 (capStr n))))) from rfl,
          parse_bs_meta (by decide : isMeta '(' = true), parse_dot_none] at hp
        simp at hp
    · rw [show interleaveR (m :: E') (capStr n) =
        capStr n ++ (m :: interleaveR E' (capStr n)) from rfl,
        parse_cap_prepend] at hp
      by_cases hmp : m = '('
      · subst hmp
        obtain ⟨y, hy⟩ := inter_shape E' (capStr n)
        rw [parse_top_lp, hy,
          show capStr n ++ y = '(' :: ('.' :: ('\x7b' ::
            ((toDigs n ++ ['\x7d', ')']) ++ y))) from rfl,
          parse_g1_ne (by decide : ('(' : Char) ≠ '.')] at hp
        simp at hp
      · by_cases hmb : m = '\\'
        · subst hmb
          obtain ⟨y, hy⟩ := inter_shape E' (capStr n)
          rw [parse_top_bs, hy,
            show capStr n ++ y = '(' :: ('.' :: ('\x7b' ::
              ((toDigs n ++ ['\x7d', ')']) ++ y))) from rfl,
            parse_bs_meta (by decide : isMeta '(' = true), parse_dot_none] at hp
          simp at hp
        · by_cases hbl : bareLit m = true
          · rw [parse_top_bare hbl] at hp
            cases hq : parseAux .top (interleaveR E' (capStr n)) with
            | none => rw [hq] at hp; simp at hp
            | some toks2 =>
              rw [hq] at hp
              simp only [Option.map_some', Option.some.injEq] at hp
              subst hp
              rcases cap_mem_cons_cap hmem with h | h
              · exact h
              · have h2 := cap_mem_cons_lit h
                have hlen2 : E'.length ≤ L := by
                  simp only [List.length_cons] at hlen; omega
                exact ih E' hlen2 (suffEsc_of_escaped hE') toks2 k hq h2
          · rw [parse_top_fail hmb hmp (by simpa using hbl)] at hp
            simp at hp

theorem parse_bs_capStr (n : Nat) (y : List Char) :
    parseAux .bs (capStr n ++ y) = none := by
  rw [show capStr n ++ y = '(' :: ('.' :: ('\x7b' ::
      ((toDigs n ++ ['\x7d', ')']) ++ y))) from rfl,
    parse_bs_meta (by decide : isMeta '(' = true), parse_dot_none]
  rfl

theorem parse_g1_capStr (n : Nat) (y : List Char) :
    parseAux .g1 (capStr n ++ y) = none := by
  rw [show capStr n ++ y = '(' :: ('.' :: ('\x7b' ::
      ((toDigs n ++ ['\x7d', ')']) ++ y))) from rfl,
    parse_g1_ne (by decide : ('(' : Char) ≠ '.')]

theorem escaped_head {c : Char} {r : List Char} (h : Escaped (c :: r)) :
    c = '\\' ∨ isMeta c = false := by
  cases h with
  | plain hc _ => exact Or.inr hc
  | esc _ _ => exact Or.inl rfl

/-- Width invariant for the nonempty-token derivation: every capture group
in the parsed derived pattern has width `n`. -/
theorem widths_ne (n : Nat) (t : List Char) (ht : 1 ≤ t.length) :
    ∀ L E, E.length ≤ L → SuffEsc E → ∀ toks k,
      parseAux .top (replaceNE E t (capStr n)) = some toks →
      RTok.cap k ∈ toks → k = n := by
  intro L
  induction L with
  | zero =>
    intro E hlen hSE toks k hp hmem
    have hE : E = [] := List.eq_nil_of_length_eq_zero (by omega)
    subst hE
    rw [replaceNE_nil] at hp
    simp only [parseAux, Option.some.injEq] at hp
    subst hp
    simp at hmem
  | succ L ih =>
    intro E hlen hSE toks k hp hmem
    by_cases hocc : isPre t E = true
    · rw [replaceNE_pos (capStr n) ht hocc, parse_cap_prepend] at hp
      cases hq : parseAux .top (replaceNE (E.drop t.length) t (capStr n)) with
      | none => rw [hq] at hp; simp at hp
      | some toks1 =>
        rw [hq] at hp
        simp only [Option.map_some', Option.some.injEq] at hp
        subst hp
        rcases cap_mem_cons_cap hmem with h | h
        · exact h
        · have hElen : 1 ≤ E.length := le_trans ht (isPre_length hocc)
          have hdl : (E.drop t.length).length ≤ L := by
            simp only [List.length_drop]; omega
          exact ih (E.drop t.length) hdl (suffEsc_drop _ hSE) toks1 k hq h
    · rcases suffEsc_cases hSE with hEsc | ⟨m, E', hm, hE', rfl⟩
      · cases hEsc with
        | nil =>
          rw [replaceNE_nil] at hp
          simp only [parseAux, Option.some.injEq] at hp
          subst hp
          simp at hmem
        | plain hc hrest =>
          rename_i c rest
          rw [replaceNE_cons c rest _ (fun h => hocc h.2)] at hp
          have hbare : bareLit c = true := by simp [bareLit, hc]
          rw [parse_top_bare hbare] at hp
          cases hq : parseAux .top (replaceNE rest t (capStr n)) with
          | none => rw [hq] at hp; simp at hp
          | some toks1 =>
            rw [hq] at hp
            simp only [Option.map_some', Option.some.injEq] at hp
            subst hp
            have h2 := cap_mem_cons_lit hmem
            have hlen2 : rest.length ≤ L := by
              simp only [List.length_cons] at hlen; omega
            exact ih rest hlen2 (suffEsc_of_escaped hrest) toks1 k hq h2
        | esc hm2 hrest =>
          rename_i m2 rest2
          rw [replaceNE_cons '\\' (m2 :: rest2) _ (fun h => hocc h.2),
            parse_top_bs] at hp
          rcases replaceNE_shape (m2 :: rest2) t (capStr n) ht with
            ⟨hocc2, heq⟩ | ⟨habs, _⟩ | ⟨c2, r2, heq0, hocc2, heq⟩
          · rw [heq, parse_bs_capStr] at hp
            simp at hp
          · exact absurd habs (by simp)
          · injection heq0 with hc2 hr2
            subst hc2
            subst hr2
            rw [heq, parse_bs_meta hm2] at hp
            cases hq : parseAux .top (replaceNE rest2 t (capStr n)) with
            | none => rw [hq] at hp; simp at hp
            | some toks1 =>
              rw [hq] at hp
              simp only [Option.map_some', Option.some.injEq] at hp
              subst hp
              have h2 := cap_mem_cons_lit hmem
              have hlen2 : rest2.length ≤ L := by
                simp only [List.length_cons] at hlen; omega
              exact ih rest2 hlen2 (suffEsc_of_escaped hrest) toks1 k hq h2
      · rw [replaceNE_cons m E' _ (fun h => hocc h.2)] at hp
        by_cases hmp : m = '('
        · subst hmp
          rw [parse_top_lp] at hp
          rcases replaceNE_shape E' t (capStr n) ht with
            ⟨hocc2, heq⟩ | ⟨hE0, heq⟩ | ⟨c2, r2, heq0, hocc2, heq⟩
          · rw [heq, parse_g1_capStr] at hp
            simp at hp
          · rw [heq] at hp
            simp [parseAux] at hp
          · subst heq0
            have hc2 : c2 ≠ '.' := by
              rcases escaped_head hE' with h | h
              · subst h; decide
              · rintro rfl; exact absurd h (by decide)
            rw [heq, parse_g1_ne hc2] at hp
            simp at hp
        · by_cases hmb : m = '\\'
          · subst hmb
            rw [parse_top_bs] at hp
            rcases replaceNE_shape E' t (capStr n) ht with
              ⟨hocc2, heq⟩ | ⟨hE0, heq⟩ | ⟨c2, r2, heq0, hocc2, heq⟩
            · rw [heq, parse_bs_capStr] at hp
              simp at hp
            · rw [heq] at hp
              simp [parseAux] at hp
            · subst heq0
              rw [heq] at hp
              cases hE' with
              | plain hc hrest2 =>
                rw [parse_bs_nonmeta hc] at hp
                simp at hp
              | esc hm3 hrest3 =>
                rename_i m3 r3
                rw [parse_bs_meta (by decide : isMeta '\\' = true)] at hp
                cases hq : parseAux .top (replaceNE (m3 :: r3) t (capStr n)) with
                | none => rw [hq] at hp; simp at hp
                | some toks1 =>
                  rw [hq] at hp
                  simp only [Option.map_some', Option.some.injEq] at hp
                  subst hp
                  have h2 := cap_mem_cons_lit hmem
                  have hSE2 : SuffEsc (m3 :: r3) :=
                    ⟨['\\'], by simpa using Escaped.esc hm3 hrest3⟩
                  have hlen2 : (m3 :: r3).length ≤ L := by
                    simp only [List.length_cons] at hlen ⊢; omega
                  exact ih (m3 :: r3) hlen2 hSE2 toks1 k hq h2
          · by_cases hbl : bareLit m = true
            · rw [parse_top_bare hbl] at hp
              cases hq : parseAux .top (replaceNE E' t (capStr n)) with
              | none => rw [hq] at hp; simp at hp
              | some toks1 =>
                rw [hq] at hp
                simp only [Option.map_some', Option.some.injEq] at hp
                subst hp
                have h2 := cap_mem_cons_lit hmem
                have hlen2 : E'.length ≤ L := by
                  simp only [List.length_cons] at hlen; omega
                exact ih E' hlen2 (suffEsc_of_escaped hE') toks1 k hq h2
            · rw [parse_top_fail hmb hmp (by simpa using hbl)] at hp
              simp at hp

theorem derivedRegex_capWidths (source token : List Char) (toks : List RTok)
    (k : Nat) (hp : parseRegex (derivedRegex source token) = some toks)
    (hmem : RTok.cap k ∈ toks) : k = utf8Len token := by
  unfold parseRegex derivedRegex replaceL at hp
  by_cases htok : token = []
  · rw [if_pos htok] at hp
    exact widths_inter (utf8Len token) (regexEscape source).length
      (regexEscape source) le_rfl
      (suffEsc_of_escaped (escaped_regexEscape source)) toks k hp hmem
  · rw [if_neg htok] at hp
    have ht : 1 ≤ token.length := by
      cases token with
      | nil => simp at htok
      | cons a as_ => simp
    exact widths_ne (utf8Len token) token ht (regexEscape source).length
      (regexEscape source) le_rfl
      (suffEsc_of_escaped (escaped_regexEscape source)) toks k hp hmem

theorem rmatchP_capLen : ∀ (ts : List RTok) (ds : List Char)
    (caps : List (List Char)), rmatchP ts ds = some caps →
    ∀ v ∈ caps, ∃ k, RTok.cap k ∈ ts ∧ v.length = k := by
  intro ts
  induction ts with
  | nil =>
    intro ds caps h v hv
    simp only [rmatchP, Option.some.injEq] at h
    subst h
    simp at hv
  | cons tk ts ih =>
    intro ds caps h v hv
    cases tk with
    | lit c =>
      cases ds with
      | nil => simp [rmatchP] at h
      | cons d ds' =>
        simp only [rmatchP] at h
        by_cases hcd : c = d
        · rw [if_pos hcd] at h
          obtain ⟨k, hk, hl⟩ := ih ds' caps h v hv
          exact ⟨k, List.mem_cons_of_mem _ hk, hl⟩
        · rw [if_neg hcd] at h
          exact absurd h (by simp)
    | cap k =>
      simp only [rmatchP] at h
      split at h
      · rename_i hg
        cases hq : rmatchP ts (ds.drop k) with
        | none => rw [hq] at h; simp at h
        | some caps1 =>
          rw [hq] at h
          simp only [Option.map_some', Option.some.injEq] at h
          subst h
          rcases List.mem_cons.mp hv with rfl | hv1
          · refine ⟨k, List.mem_cons_self _ _, ?_⟩
            rw [List.length_take]
            omega
          · obtain ⟨k', hk', hl⟩ := ih (ds.drop k) caps1 hq v hv1
            exact ⟨k', List.mem_cons_of_mem _ hk', hl⟩
      · exact absurd h (by simp)

theorem rfindFrom_cons (ts : List RTok) (c : Char) (rest : List Char) :
    rfindFrom ts (c :: rest) =
      match rmatchP ts (c :: rest) with
      | some caps => some caps
      | none => rfindFrom ts rest := rfl

theorem rfindFrom_capLen (ts : List RTok) : ∀ (s : List Char)
    (caps : List (List Char)), rfindFrom ts s = some caps →
    ∀ v ∈ caps, ∃ k, RTok.cap k ∈ ts ∧ v.length = k := by
  intro s
  induction s with
  | nil =>
    intro caps h v hv
    exact rmatchP_capLen ts [] caps h v hv
  | cons c rest ih =>
    intro caps h v hv
    rw [rfindFrom_cons] at h
    cases hq : rmatchP ts (c :: rest) with
    | some caps1 =>
      rw [hq] at h
      simp only [Option.some.injEq] at h
      subst h
      exact rmatchP_capLen ts (c :: rest) caps1 hq v hv
    | none =>
      rw [hq] at h
      exact ih caps h v hv

/-! ## Claim C1 and Claim C9 -/

/-- Claim C1 (code bug).  With source template "book-##.cbz", target
"out-##.cbz" and token "##", `escape_glob` escapes each '#' before the
placeholder substitution runs (and does so twice, turning each '#' into a
literal backslash followed by '#').  The escaped template therefore no
longer contains "##", the wildcard substitution never happens, the derived
glob is the 15-character string book-[bs][bs]#[bs][bs]#.cbz, and none of
book-01.cbz, book-02.cbz, book-10.cbz match: `resolve_pattern` returns
zero jobs, not the three jobs the claim describes. -/
theorem c1_code_bug_eval :
    derivedGlob ("book-##.cbz".data) ("##".data) = "book-\\\\#\\\\#.cbz".data ∧
    resolvePattern ⟨"book-##.cbz", "out-##.cbz", none, none, none, none, some "##"⟩
      "##" ["book-01.cbz", "book-02.cbz", "book-10.cbz"] = Res.ok [] := by
  constructor
  · decide
  · decide

/-- Claim C9 (counterexample).  With the non-ASCII token "é" (one
character, two UTF-8 bytes) in source template "xéy", the derived capture
group is `(.{2})` because the code sizes it by `pattern.len()` in bytes;
the file "xaby" is an accepted filesystem match whose captured substring
"ab" has length 2, not the token's length 1, and the substituted target
"zabw" is wider than the token — refuting the claim as stated. -/
theorem c9_counterexample :
    resolvePattern ⟨"xéy", "zéw", none, none, none, none, some "é"⟩ "é" ["xaby"]
      = Res.ok [⟨"xaby", "zabw", none, none, none, none, none⟩] ∧
    parseRegex (derivedRegex ("xéy".data) ("é".data))
      = some [RTok.lit 'x', RTok.cap 2, RTok.lit 'y'] ∧
    rfindFrom [RTok.lit 'x', RTok.cap 2, RTok.lit 'y'] ("xaby".data)
      = some [['a', 'b']] ∧
    ¬ ((['a', 'b'] : List Char).length = ("é".data).length) := by
  refine ⟨by decide, by decide, by decide, by decide⟩

/-- Claim C9 (amended).  For every filesystem match accepted during
pattern resolution, each substring captured by the derived regex has
character length exactly `pattern.len()` — the placeholder token's UTF-8
byte length, which coincides with its character length for ASCII tokens. -/
theorem c9_amended (source token path : List Char) (toks : List RTok)
    (caps : List (List Char)) (v : List Char)
    (hp : parseRegex (derivedRegex source token) = some toks)
    (hf : rfindFrom toks path = some caps)
    (hv : v ∈ caps) : v.length = utf8Len token := by
  obtain ⟨k, hk, hl⟩ := rfindFrom_capLen toks path caps hf v hv
  rw [hl]
  exact derivedRegex_capWidths source token toks k hp hk

/-- Witness for `c9_amended` at the concrete template "a-XX.b", token
"XX", matched path "a-01.b". -/
theorem c9_amended_witness :
    (['0', '1'] : List Char).length = utf8Len ("XX".data) :=
  c9_amended ("a-XX.b".data) ("XX".data) ("a-01.b".data)
    [RTok.lit 'a', RTok.lit '-', RTok.cap 2, RTok.lit '.', RTok.lit 'b']
    [['0', '1']] ['0', '1'] (by decide) (by decide) (by decide)

/-! ## The archive pipeline model

Relative paths are lists of components; a scratch tree is a list of
entries (directories carry no data, files carry bytes).  The `cfg(unix)`
permission re-application in `unpack_archive` does not alter the tree
shape and is not tracked.  `strip_prefix(source)` in the per-file
functions is modelled by the walker handing over source-relative paths
directly (within the pipeline every visited path is under the source
root, so `strip_prefix` cannot fail there). -/

abbrev Bytes := List Nat

/-- One entry of the source zip archive: its stored name (directories end
with a slash), its bytes, and its optional unix mode. -/
structure ZEntry where
  name : String
  bytes : Bytes
  mode : Option Nat
deriving DecidableEq, Repr

/-- A filesystem object in a scratch tree: `data = none` is a directory. -/
structure FsEntry where
  path : List String
  data : Option Bytes
deriving DecidableEq, Repr

abbrev FsTree := List FsEntry

/-- Observable side effects of entry processing: an invocation of the
external `gm` tool, and an `error!`-logged message. -/
inductive Event where
  | gmCall (args : List String)
  | errorLogged (msg : String)
deriving DecidableEq, Repr

/-- The successive phases `process_archive` runs. -/
inductive Step where
  | unpack
  | process
  | repack
deriving DecidableEq, Repr

def splitSlashGo (cur : List Char) (acc : List String) :
    List Char → List String
  | [] => acc ++ [String.mk cur.reverse]
  | c :: rest =>
    if c = '/' then splitSlashGo [] (acc ++ [String.mk cur.reverse]) rest
    else splitSlashGo (c :: cur) acc rest

def splitSlash (s : String) : List String := splitSlashGo [] [] s.data

/-- `ZipFile::enclosed_name`: reject NUL bytes and absolute names, walk
the components (skipping empty and `.`), and reject any `..` that would
climb above the extraction root; on success return the component list
(`..` between normal components is allowed and retained). -/
def enclosedName (name : String) : Option (List String) :=
  if name.data.contains '\u0000' then none
  else if name.data.head? = some '/' then none
  else
    let comps := (splitSlash name).filter (fun c => c != "" && c != ".")
    let depth := comps.foldl
      (fun d c =>
        match d with
        | none => none
        | some depth =>
          if c = ".." then (if depth = 0 then none else some (depth - 1))
          else some (depth + 1))
      (some 0)
    match depth with
    | none => none
    | some _ => some comps

/-- Resolve `..` components against the components already placed (the
operating system's path resolution for the joined path). -/
def normGo (acc : List String) : List String → List String
  | [] => acc
  | c :: cs =>
    if c = ".." then normGo acc.dropLast cs else normGo (acc ++ [c]) cs

def normComps (comps : List String) : List String := normGo [] comps

def hasPath (t : FsTree) (p : List String) : Bool :=
  t.any (fun e => e.path == p)

def hasDir (t : FsTree) (p : List String) : Bool :=
  t.any (fun e => e.path == p && e.data.isNone)

def addDir (t : FsTree) (p : List String) : FsTree :=
  if hasPath t p then t else t ++ [⟨p, none⟩]

/-- All nonempty prefixes of a path, shortest first, ending with the path
itself. -/
def ancestorsOf (p : List String) : List (List String) :=
  (List.range p.length).map (fun i => p.take (i + 1))

/-- `create_dir_all`: create the directory and every ancestor. -/
def addDirAll (t : FsTree) (p : List String) : FsTree :=
  (ancestorsOf p).foldl addDir t

/-- `create_parent`: `create_dir_all` on the parent of a file path. -/
def createParentDirs (t : FsTree) (p : List String) : FsTree :=
  addDirAll t p.dropLast

/-- `File::create` + `io::copy`: write the file, replacing any previous
entry at that path. -/
def addFile (t : FsTree) (p : List String) (b : Bytes) : FsTree :=
  (t.filter (fun e => e.path != p)) ++ [⟨p, some b⟩]

def isDirName (name : String) : Bool := name.data.getLast? = some '/'

/-- The `unpack_archive` loop: for each entry in archive order, reject
unsafe names (stopping the whole job), create directories with ancestors,
or create parent directories and write the file. -/
def unpackGo : List ZEntry → FsTree → FsTree × Option String
  | [], t => (t, none)
  | e :: rest, t =>
    match enclosedName e.name with
    | none => (t, some "invalid name for file in archive")
    | some comps =>
      let p := normComps comps
      let t' := if isDirName e.name then addDirAll t p
                else addFile (createParentDirs t p) p e.bytes
      unpackGo rest t'

def unpackArchive (entries : List ZEntry) : FsTree × Option String :=
  unpackGo entries []

def joinPath : List String → String
  | [] => ""
  | [c] => c
  | c :: rest => c ++ "/" ++ joinPath rest

/-- Rust `Path::extension`, with the program's
`map_or_else(|| "", ...)` collapse of `None` to the empty string: the
part of the file name after the last dot, provided the part before that
dot is nonempty. -/
def extOfName (name : String) : String :=
  let rev := name.data.reverse
  let extRev := rev.takeWhile (fun c => c ≠ '.')
  match rev.drop extRev.length with
  | [] => ""
  | _ :: stemRev => if stemRev = [] then "" else String.mk extRev.reverse

/-- Rust `Path::file_stem` for a file name. -/
def stemOfName (name : String) : String :=
  let rev := name.data.reverse
  let extRev := rev.takeWhile (fun c => c ≠ '.')
  match rev.drop extRev.length with
  | [] => name
  | _ :: stemRev => if stemRev = [] then name else String.mk stemRev.reverse

/-- Rust `PathBuf::set_extension` on a file name. -/
def setExtName (name ext : String) : String :=
  if ext = "" then stemOfName name else stemOfName name ++ "." ++ ext

/-- Rust `Path::with_extension` on a relative path. -/
def withExt (p : List String) (ext : String) : List String :=
  match p.reverse with
  | [] => []
  | last :: restRev => restRev.reverse ++ [setExtName last ext]

def lastName (p : List String) : String := p.getLast?.getD ""

/-- The fixed recognized set (lazy_static IMAGE_EXTENSIONS). -/
def IMAGE_EXTENSIONS : List String := ["jpg", "png", "webp", "avif", "gif"]

/-- The argument vector handed to the external tool (the program spawns
`gm` with these arguments).  Note the codec define is pushed as the bare
word "define", without a leading dash. -/
def buildGmArgs (opts : Opts) (item dest : String) : List String :=
  ["convert", item,
   "-geometry", opts.geometry.getD "1000x1400^",
   "-quality", opts.quality.getD "80"]
  ++ (match opts.define with
      | some d => ["define", d]
      | none => [])
  ++ [dest]

/-- The mirrored destination path with the configured output extension. -/
def destPathFor (opts : Opts) (item : List String) : List String :=
  withExt item (opts.extension.getD "jpg")

/-- `process_one_image`: compute the destination, create its parent
directories, invoke the external converter (oracle `gm`; `some bytes` is
a zero exit status producing those bytes, `none` a non-zero exit), and on
failure return the error carrying the tool's diagnostics. -/
def processOneImage (item : List String) (outT : FsTree) (opts : Opts)
    (gm : String → Option Bytes) : FsTree × List Event × Res Unit :=
  let dest := destPathFor opts item
  let t1 := createParentDirs outT dest
  let args := buildGmArgs opts (joinPath item) (joinPath dest)
  match gm (joinPath item) with
  | some b => (addFile t1 dest b, [Event.gmCall args], Res.ok ())
  | none => (t1, [Event.gmCall args], Res.err "gm convert invocation failed")

def parentDirOk (t : FsTree) (p : List String) : Bool :=
  if p.dropLast = [] then true else hasDir t p.dropLast

/-- `std::fs::copy` to the mirrored path: succeeds only when the
destination's parent directory exists; the program discards the result
(`let _ = ...`), so failure is silent. -/
def opaqueCopy (t : FsTree) (p : List String) (b : Bytes) : FsTree :=
  if parentDirOk t p then addFile t p b else t

/-- `process_one_file`: dispatch on the (case-sensitive) extension. -/
def processOneFile (item : List String) (b : Bytes) (outT : FsTree)
    (opts : Opts) (gm : String → Option Bytes) :
    FsTree × List Event × Res Unit :=
  if IMAGE_EXTENSIONS.contains (extOfName (lastName item)) then
    processOneImage item outT opts gm
  else
    (opaqueCopy outT item b, [], Res.ok ())

/-- The walker over the unpacked tree: all entries under the root,
directories before their contents (paths sorted by their string form). -/
def walk (t : FsTree) : List FsEntry :=
  sortBy (fun a b => strLe (joinPath a.path) (joinPath b.path)) t

/-- The `process_files` loop.  A directory entry makes the code call
`create_dir_all` on the absolutized SOURCE path (the comment in the code
says "create dir in destination" but the target is never joined), which
already exists — no effect on the output tree.  A file entry is
dispatched; an `Err` from `process_one_file` is logged via `error!` and
the loop continues. -/
def processFilesGo (opts : Opts) (gm : String → Option Bytes) :
    List FsEntry → FsTree → List Event → FsTree × List Event
  | [], t, evs => (t, evs)
  | e :: rest, t, evs =>
    match e.data with
    | none => processFilesGo opts gm rest t evs
    | some b =>
      match processOneFile e.path b t opts gm with
      | (t', ev, Res.ok _) => processFilesGo opts gm rest t' (evs ++ ev)
      | (t', ev, Res.err m) =>
        processFilesGo opts gm rest t' (evs ++ ev ++ [Event.errorLogged m])

def processFiles (srcTree : FsTree) (opts : Opts)
    (gm : String → Option Bytes) : FsTree × List Event :=
  processFilesGo opts gm (walk srcTree) [] []

/-- `repack_output`: the external `zip --recurse-paths <target> .` call,
by its exit-status contract — it cannot write the archive over an
existing non-empty directory and exits non-zero there, leaving that
directory untouched; otherwise the archive holds exactly the processed
tree. -/
def repackOutput (t : FsTree) (targetNonEmptyDir : Bool) : Res FsTree :=
  if targetNonEmptyDir then Res.err "zip invocation failed"
  else Res.ok (walk t)

/-- `process_archive`: create scratch directories, unpack, process every
entry, repack.  There is no validation of the target path before
unpacking.  Returns the phases that ran, the logged events, and the final
result. -/
def processArchive (entries : List ZEntry) (targetNonEmptyDir : Bool)
    (opts : Opts) (gm : String → Option Bytes) :
    List Step × List Event × Res FsTree :=
  match unpackArchive entries with
  | (_, some e) => ([Step.unpack], [], Res.err e)
  | (srcTree, none) =>
    let pr := processFiles srcTree opts gm
    match repackOutput pr.1 targetNonEmptyDir with
    | Res.err e => ([Step.unpack, Step.process, Step.repack], pr.2, Res.err e)
    | Res.ok a => ([Step.unpack, Step.process, Step.repack], pr.2, Res.ok a)

/-- A job description with no conversion options set. -/
def opts0 : Opts := ⟨"", "", none, none, none, none, none⟩

/-- Converter oracle that always fails. -/
def gmNone : String → Option Bytes := fun _ => none

/-- Converter oracle for the claim C4 scenario: conversion succeeds for
a.jpg and c.jpg and fails for b.jpg. -/
def gmC4 : String → Option Bytes := fun s =>
  if s = "a.jpg" then some [10] else if s = "c.jpg" then some [30] else none


/-! ## Claims C2, C3, C4 -/

/-- Claim C2 (code bug).  Archive with entries d/, d/f.txt (bytes
[1,2,3]) and root.txt (bytes [9]): unpacking produces the full tree, but
`process_files`' directory branch calls `create_dir_all` on the
absolutized SOURCE path (its own comment says "create dir in
destination"), so d is never mirrored into the output root; the verbatim
copy of d/f.txt then fails for want of its parent directory and the
failure is discarded, and the repacked archive contains only root.txt —
the nested opaque file does not round-trip. -/
theorem c2_code_bug_eval :
    unpackArchive [⟨"d/", [], none⟩, ⟨"d/f.txt", [1, 2, 3], none⟩,
        ⟨"root.txt", [9], none⟩]
      = ([⟨["d"], none⟩, ⟨["d", "f.txt"], some [1, 2, 3]⟩,
          ⟨["root.txt"], some [9]⟩], none) ∧
    processArchive [⟨"d/", [], none⟩, ⟨"d/f.txt", [1, 2, 3], none⟩,
        ⟨"root.txt", [9], none⟩] false opts0 gmNone
      = ([Step.unpack, Step.process, Step.repack], [],
         Res.ok [⟨["root.txt"], some [9]⟩]) := by
  constructor
  · decide
  · decide

/-- Claim C3 (counterexample).  For a job whose target path exists as a
non-empty directory, `process_archive` still runs unpacking first: there
is no pre-flight validation of the target anywhere in the pipeline, so
the claim that the job is rejected before any unpacking is false. -/
theorem c3_counterexample :
    (processArchive [⟨"a.txt", [1], none⟩] true opts0 gmNone).1
      = [Step.unpack, Step.process, Step.repack] := by
  decide

/-- Claim C3 (amended).  With the target an existing non-empty directory
the pipeline is not rejected up front: it unpacks and processes fully and
fails only at the repack step, when the external zip tool exits non-zero;
the failure does not modify the existing directory. -/
theorem c3_amended :
    processArchive [⟨"a.txt", [1], none⟩] true opts0 gmNone
      = ([Step.unpack, Step.process, Step.repack], [],
         Res.err "zip invocation failed") := by
  decide

/-- The claim C4 archive: three images and two non-image files. -/
def c4Entries : List ZEntry :=
  [⟨"a.jpg", [1], none⟩, ⟨"b.jpg", [2], none⟩, ⟨"c.jpg", [3], none⟩,
   ⟨"x.txt", [4], none⟩, ⟨"y.txt", [5], none⟩]

/-- The target archive the pipeline actually produces for `c4Entries`. -/
def c4Out : FsTree :=
  [⟨["a.jpg"], some [10]⟩, ⟨["c.jpg"], some [30]⟩,
   ⟨["x.txt"], some [4]⟩, ⟨["y.txt"], some [5]⟩]

def isErrorEvent : Event → Bool
  | Event.errorLogged _ => true
  | _ => false

/-- Claim C4 (counterexample).  With conversion failing for exactly one
of the three images, the produced archive holds two converted images and
the two non-image files — four entries — not the "1 converted image plus
the 4 other entries" (five entries, one converted) the claim states. -/
theorem c4_counterexample :
    (processArchive c4Entries false opts0 gmC4).2.2 = Res.ok c4Out ∧
    ¬ ((c4Out.filter (fun e =>
        IMAGE_EXTENSIONS.contains (extOfName (lastName e.path)))).length = 1) ∧
    ¬ (c4Out.length = 5) := by
  refine ⟨by decide, by decide, by decide⟩

/-- Claim C4 (amended).  In the three-image/two-opaque archive with one
failing conversion, the failure is reported exactly once, processing
continues, and the job still succeeds: the target archive holds the two
successfully converted images plus the two opaque files. -/
theorem c4_amended :
    processArchive c4Entries false opts0 gmC4
      = ([Step.unpack, Step.process, Step.repack],
         [Event.gmCall ["convert", "a.jpg", "-geometry", "1000x1400^",
            "-quality", "80", "a.jpg"],
          Event.gmCall ["convert", "b.jpg", "-geometry", "1000x1400^",
            "-quality", "80", "b.jpg"],
          Event.errorLogged "gm convert invocation failed",
          Event.gmCall ["convert", "c.jpg", "-geometry", "1000x1400^",
            "-quality", "80", "c.jpg"]],
         Res.ok c4Out) ∧
    ((processArchive c4Entries false opts0 gmC4).2.1.filter
      isErrorEvent).length = 1 := by
  refine ⟨by decide, by decide⟩

/-! ## Claim C5: the path traversal guard -/

theorem mem_normGo : ∀ (cs : List String) (acc : List String) (c : String),
    c ∈ normGo acc cs → c ∈ acc ∨ (c ∈ cs ∧ c ≠ "..") := by
  intro cs
  induction cs with
  | nil =>
    intro acc c h
    exact Or.inl h
  | cons d ds ih =>
    intro acc c h
    simp only [normGo] at h
    by_cases hd : d = ".."
    · rw [if_pos hd] at h
      rcases ih _ c h with h1 | h1
      · exact Or.inl ((List.dropLast_sublist _).subset h1)
      · exact Or.inr ⟨List.mem_cons_of_mem _ h1.1, h1.2⟩
    · rw [if_neg hd] at h
      rcases ih _ c h with h1 | h1
      · rcases List.mem_append.mp h1 with h2 | h2
        · exact Or.inl h2
        · have hc : c = d := by simpa using h2
          subst hc
          exact Or.inr ⟨List.mem_cons_self _ _, hd⟩
      · exact Or.inr ⟨List.mem_cons_of_mem _ h1.1, h1.2⟩

theorem enclosedName_eq_filter {name : String} {comps : List String}
    (h : enclosedName name = some comps) :
    comps = (splitSlash name).filter (fun c => c != "" && c != ".") := by
  simp only [enclosedName] at h
  split at h
  · exact absurd h (by simp)
  · split at h
    · exact absurd h (by simp)
    · split at h
      · exact absurd h (by simp)
      · simpa using h.symm

theorem normComps_safe {name : String} {comps : List String}
    (h : enclosedName name = some comps) :
    ∀ c ∈ normComps comps, c ≠ "" ∧ c ≠ "." ∧ c ≠ ".." := by
  intro c hc
  rcases mem_normGo comps [] c hc with h1 | h1
  · simp at h1
  · obtain ⟨hmem, hne⟩ := h1
    rw [enclosedName_eq_filter h] at hmem
    have hf := List.of_mem_filter hmem
    simp only [Bool.and_eq_true, bne_iff_ne, ne_eq] at hf
    exact ⟨hf.1, hf.2, hne⟩

/-- The safety predicate: every component is a normal name, so the joined
path resolves strictly inside the extraction root. -/
def SafeTree (t : FsTree) : Prop :=
  ∀ fe ∈ t, ∀ c ∈ fe.path, c ≠ "" ∧ c ≠ "." ∧ c ≠ ".."

theorem addDir_safe {t : FsTree} {p : List String} (ht : SafeTree t)
    (hp : ∀ c ∈ p, c ≠ "" ∧ c ≠ "." ∧ c ≠ "..") :
    SafeTree (addDir t p) := by
  intro fe hfe
  unfold addDir at hfe
  by_cases hh : hasPath t p = true
  · rw [if_pos hh] at hfe
    exact ht fe hfe
  · rw [if_neg hh] at hfe
    rcases List.mem_append.mp hfe with h1 | h1
    · exact ht fe h1
    · have : fe = ⟨p, none⟩ := by simpa using h1
      subst this
      exact hp

theorem foldl_addDir_safe : ∀ (qs : List (List String)) (t : FsTree),
    SafeTree t → (∀ q ∈ qs, ∀ c ∈ q, c ≠ "" ∧ c ≠ "." ∧ c ≠ "..") →
    SafeTree (qs.foldl addDir t) := by
  intro qs
  induction qs with
  | nil => intro t ht _; exact ht
  | cons q qs ih =>
    intro t ht hqs
    simp only [List.foldl_cons]
    exact ih _ (addDir_safe ht (hqs q (List.mem_cons_self _ _)))
      (fun q' hq' => hqs q' (List.mem_cons_of_mem _ hq'))

theorem addDirAll_safe {t : FsTree} {p : List String} (ht : SafeTree t)
    (hp : ∀ c ∈ p, c ≠ "" ∧ c ≠ "." ∧ c ≠ "..") :
    SafeTree (addDirAll t p) := by
  unfold addDirAll
  have hanc : ∀ q ∈ ancestorsOf p, ∀ c ∈ q, c ≠ "" ∧ c ≠ "." ∧ c ≠ ".." := by
    intro q hq c hc
    unfold ancestorsOf at hq
    obtain ⟨i, _, hqi⟩ := List.mem_map.mp hq
    subst hqi
    exact hp c (List.take_subset _ _ hc)
  exact foldl_addDir_safe (ancestorsOf p) t ht hanc

theorem addFile_safe {t : FsTree} {p : List String} {b : Bytes}
    (ht : SafeTree t) (hp : ∀ c ∈ p, c ≠ "" ∧ c ≠ "." ∧ c ≠ "..") :
    SafeTree (addFile t p b) := by
  intro fe hfe
  unfold addFile at hfe
  rcases List.mem_append.mp hfe with h1 | h1
  · exact ht fe (List.mem_of_mem_filter h1)
  · have : fe = ⟨p, some b⟩ := by simpa using h1
    subst this
    exact hp

theorem createParentDirs_safe {t : FsTree} {p : List String}
    (ht : SafeTree t) (hp : ∀ c ∈ p, c ≠ "" ∧ c ≠ "." ∧ c ≠ "..") :
    SafeTree (createParentDirs t p) :=
  addDirAll_safe ht
    (fun c hc => hp c ((List.dropLast_sublist _).subset hc))

theorem unpackGo_safe : ∀ (entries : List ZEntry) (t : FsTree),
    SafeTree t → SafeTree (unpackGo entries t).1 := by
  intro entries
  induction entries with
  | nil => intro t ht; exact ht
  | cons e rest ih =>
    intro t ht
    cases he : enclosedName e.name with
    | none => simp only [unpackGo, he]; exact ht
    | some comps =>
      simp only [unpackGo, he]
      have hsafe := normComps_safe he
      by_cases hdir : isDirName e.name = true
      · rw [if_pos hdir]
        exact ih _ (addDirAll_safe ht hsafe)
      · rw [if_neg hdir]
        exact ih _ (addFile_safe (createParentDirs_safe ht hsafe) hsafe)

theorem unpackGo_err : ∀ (entries : List ZEntry) (t : FsTree),
    (∃ e ∈ entries, enclosedName e.name = none) →
    (unpackGo entries t).2.isSome = true := by
  intro entries
  induction entries with
  | nil =>
    intro t h
    obtain ⟨e, he, _⟩ := h
    simp at he
  | cons e rest ih =>
    intro t h
    cases he : enclosedName e.name with
    | none => simp [unpackGo, he]
    | some comps =>
      simp only [unpackGo, he]
      obtain ⟨e', he', hnone⟩ := h
      rcases List.mem_cons.mp he' with rfl | hmem
      · rw [he] at hnone
        exact absurd hnone (by simp)
      · exact ih _ ⟨e', hmem, hnone⟩

/-- Claim C5.  If any archive entry's name fails the traversal guard
(`enclosed_name` returns `None` — absolute paths, NUL bytes, or `..`
escaping the root), then `unpack_archive` fails with an error; moreover
everything that was extracted before the failure (and in general by any
run of the unpacker) lies strictly under the scratch root: every created
path consists only of normal components. -/
theorem c5_unpack_guard (entries : List ZEntry)
    (h : ∃ e ∈ entries, enclosedName e.name = none) :
    (unpackArchive entries).2.isSome = true ∧
    ∀ fe ∈ (unpackArchive entries).1, ∀ c ∈ fe.path,
      c ≠ "" ∧ c ≠ "." ∧ c ≠ ".." := by
  constructor
  · exact unpackGo_err entries [] h
  · exact unpackGo_safe entries [] (by intro fe hfe; simp at hfe)

/-- Witness for `c5_unpack_guard`: a single entry named "../evil". -/
theorem c5_unpack_guard_witness :
    (unpackArchive [⟨"../evil", [1], none⟩]).2.isSome = true ∧
    ∀ fe ∈ (unpackArchive [⟨"../evil", [1], none⟩]).1, ∀ c ∈ fe.path,
      c ≠ "" ∧ c ≠ "." ∧ c ≠ ".." :=
  c5_unpack_guard [⟨"../evil", [1], none⟩]
    ⟨⟨"../evil", [1], none⟩, by decide, by decide⟩

/-! ## Claims C6, C7, C8, C10 -/

/-- ASCII lower-casing, modelling the spec's "compare lower-cased
extension" rule (the code never lower-cases). -/
def asciiLower (c : Char) : Char :=
  if 'A' ≤ c ∧ c ≤ 'Z' then Char.ofNat (c.toNat + 32) else c

def asciiLowerStr (s : String) : String := String.mk (s.data.map asciiLower)

/-- Claim C6 (counterexample).  The dispatch in `process_one_file`
compares the extension exactly as extracted — there is no lower-casing —
so for the file "photo.JPG" the claim's rule (lower-cased extension "jpg"
is in the set, hence image) disagrees with the code (extension "JPG" is
not in the set, hence opaque: no converter invocation occurs). -/
theorem c6_counterexample :
    ¬ (IMAGE_EXTENSIONS.contains (extOfName "photo.JPG") =
       IMAGE_EXTENSIONS.contains (asciiLowerStr (extOfName "photo.JPG"))) ∧
    (processOneFile ["photo.JPG"] [1] [] opts0 gmNone).2.1 = [] := by
  constructor
  · decide
  · decide

/-- Claim C6 (amended).  An extracted file is routed to the image
transformer (observable as an invocation of the external converter) if
and only if its file extension, compared case-sensitively and without
modification, is one of jpg, png, webp, avif, gif; every other file is
copied verbatim with no converter call. -/
theorem c6_amended (p : List String) (b : Bytes) (t : FsTree) (o : Opts)
    (g : String → Option Bytes) :
    (∃ args, Event.gmCall args ∈ (processOneFile p b t o g).2.1) ↔
      IMAGE_EXTENSIONS.contains (extOfName (lastName p)) = true := by
  by_cases h : extOfName (lastName p) ∈ IMAGE_EXTENSIONS
  · cases hg : g (joinPath p) with
    | some bb => simp [processOneFile, processOneImage, hg, h]
    | none => simp [processOneFile, processOneImage, hg, h]
  · simp [processOneFile, h]

/-- Claim C7 (code bug).  With a configured codec define, the argument
vector the program builds for the external tool carries the bare word
"define", not the documented flag "-define"; a failing conversion is
surfaced as an error carrying the tool's diagnostics. -/
theorem c7_code_bug_eval :
    buildGmArgs ⟨"s.cbz", "t.cbz", some "85", some "800x600^", some "d1",
        some "webp", none⟩ "in.png" "out.webp"
      = ["convert", "in.png", "-geometry", "800x600^", "-quality", "85",
         "define", "d1", "out.webp"] ∧
    ¬ ("-define" ∈ buildGmArgs ⟨"s.cbz", "t.cbz", some "85", some "800x600^",
        some "d1", some "webp", none⟩ "in.png" "out.webp") ∧
    (processOneImage ["in.png"] [] ⟨"s.cbz", "t.cbz", some "85",
        some "800x600^", some "d1", some "webp", none⟩ gmNone).2.2
      = Res.err "gm convert invocation failed" := by
  refine ⟨by decide, by decide, by decide⟩

/-- Claim C8 (counterexample).  An opaque file in a directory that was
never mirrored to the output: the verbatim copy fails (its destination
parent does not exist), yet `process_one_file` returns success with NO
logged event — the failure is silently discarded by `let _ = ...`, not
logged as the claim states. -/
theorem c8_counterexample :
    parentDirOk ([] : FsTree) ["d", "f.txt"] = false ∧
    processOneFile ["d", "f.txt"] [1] [] opts0 gmNone
      = ([], [], Res.ok ()) := by
  constructor
  · decide
  · decide

/-- Claim C8 (amended).  For every opaque (non-image) entry, the verbatim
copy — whether it succeeds or fails — produces no log event and never
aborts the job: `process_one_file` returns success unconditionally, so
all other entries are still processed. -/
theorem c8_amended (p : List String) (b : Bytes) (t : FsTree) (o : Opts)
    (g : String → Option Bytes)
    (h : IMAGE_EXTENSIONS.contains (extOfName (lastName p)) = false) :
    (processOneFile p b t o g).2.1 = [] ∧
    (processOneFile p b t o g).2.2 = Res.ok () := by
  have h' : extOfName (lastName p) ∉ IMAGE_EXTENSIONS := by
    simpa using h
  simp [processOneFile, h']

/-- Witness for `c8_amended`: a nested opaque file whose copy fails. -/
theorem c8_amended_witness :
    (processOneFile ["d", "f.txt"] [2] [] opts0 gmNone).2.1 = [] ∧
    (processOneFile ["d", "f.txt"] [2] [] opts0 gmNone).2.2 = Res.ok () :=
  c8_amended ["d", "f.txt"] [2] [] opts0 gmNone (by decide)

/-- Claim C10.  When the geometry, quality and extension options are
absent, the external tool is invoked with geometry "1000x1400^" and
quality "80", and the destination path gets extension "jpg". -/
theorem c10_defaults (o : Opts) (src dst : String) (p : List String)
    (hg : o.geometry = none) (hq : o.quality = none)
    (he : o.extension = none) :
    buildGmArgs o src dst
      = ["convert", src, "-geometry", "1000x1400^", "-quality", "80"]
        ++ (match o.define with | some d => ["define", d] | none => [])
        ++ [dst] ∧
    destPathFor o p = withExt p "jpg" := by
  constructor
  · simp [buildGmArgs, hg, hq]
  · simp [destPathFor, he]

/-- Witness for `c10_defaults` on a concrete image path. -/
theorem c10_defaults_witness :
    buildGmArgs opts0 "sub/pic.png" "sub/pic.jpg"
      = ["convert", "sub/pic.png", "-geometry", "1000x1400^",
         "-quality", "80"]
        ++ (match opts0.define with | some d => ["define", d] | none => [])
        ++ ["sub/pic.jpg"] ∧
    destPathFor opts0 ["sub", "pic.png"] = withExt ["sub", "pic.png"] "jpg" :=
  c10_defaults opts0 "sub/pic.png" "sub/pic.jpg" ["sub", "pic.png"]
    rfl rfl rfl
